import Mathlib

/-!
Verification of the tile core of the moresweeper repository
(src/backend/tile.py) against its natural-language specification.

The Python `Tile` objects live on a board and reference their neighbours;
we embed the board as a total function from slot indices (`Nat`) to tile
records, and every mutating method of the Python class becomes a function
from boards to boards.  Python `set`s of tiles are `Finset Nat` of slot
indices: the Python class defines no `__eq__`/`__hash__`, so tiles compare
by object identity, which the slot index models exactly.  The fallible
expression `set.union(*gen)` of `double` (a `TypeError` on an empty
neighbour set) and the fuelled breadth-first loop of `open` are modelled
with `Option`.
-/

set_option maxHeartbeats 1000000

/-- One cell of the board, mirroring the fields set up by `Tile.__init__`
together with the coordinates.  `neighbours` holds the board slots of the
adjacent tiles. -/
structure Tile where
  x : Int
  y : Int
  value : Int
  flagged : Bool
  covered : Bool
  down : Bool
  status : Int
  neighbours : Finset Nat
  neighbour_flags : Int
deriving DecidableEq

def Tile.MINE : Int := -1

def Tile.BLAST : Int := -2

def Tile.WRONGFLAG : Int := -3

def Tile.UNFLAGGED : Int := -4

def Tile.COVERED : Int := 9

def Tile.DOWN : Int := 10

def Tile.FLAGGED : Int := 11

/-- A tile as `Tile.__init__` produces it (all-default state), with the
neighbour set already wired in by `set_neighbours`. -/
def Tile.fresh (x y : Int) (nb : Finset Nat) : Tile :=
  { x := x, y := y, value := 0, flagged := false, covered := true, down := false,
    status := Tile.COVERED, neighbours := nb, neighbour_flags := 0 }

/-- `get_coordinate`. -/
def Tile.get_coordinate (t : Tile) : Int × Int := (t.x, t.y)

/-- `get_status`: returns the stored `status` field. -/
def Tile.get_status (t : Tile) : Int := t.status

/-- `is_mine`. -/
def Tile.is_mine (t : Tile) : Bool := t.value == Tile.MINE

/-- `recover`: reset the mutable per-game state of one tile. -/
def Tile.recover (t : Tile) : Tile :=
  { t with flagged := false, covered := true, down := false,
           status := Tile.COVERED, neighbour_flags := 0 }

/-- `update`: recompute the stored `status` from the canonical state. -/
def Tile.update (t : Tile) : Tile :=
  { t with status :=
      if t.flagged = true then Tile.FLAGGED
      else if t.down = true then Tile.DOWN
      else if t.covered = true then Tile.COVERED
      else t.value }

/-- `update_finish`. -/
def Tile.update_finish (t : Tile) : Tile :=
  let u := t.update
  if u.flagged = false ∧ u.is_mine = true then { u with status := Tile.UNFLAGGED } else u

/-- `update_blast`. -/
def Tile.update_blast (t : Tile) : Tile :=
  let u := t.update
  if u.flagged = true ∧ u.is_mine = false then { u with status := Tile.WRONGFLAG }
  else if u.covered = false ∧ u.is_mine = true then { u with status := Tile.BLAST }
  else if u.flagged = false ∧ u.is_mine = true then { u with status := Tile.MINE }
  else u

/-- The board: a slot-indexed family of tiles.  Slots `0, …, size - 1` are
the tiles of the board; the function is total on `Nat` only because Lean
functions are total. -/
structure Board where
  size : Nat
  tiles : Nat → Tile

/-- Replace the tile in slot `i` (Python mutates the object in place). -/
def Board.modifyTile (b : Board) (i : Nat) (f : Tile → Tile) : Board :=
  { b with tiles := fun j => if j = i then f (b.tiles j) else b.tiles j }

@[simp] lemma Board.modifyTile_size (b : Board) (i : Nat) (f : Tile → Tile) :
    (b.modifyTile i f).size = b.size := rfl

@[simp] lemma Board.modifyTile_self (b : Board) (i : Nat) (f : Tile → Tile) :
    (b.modifyTile i f).tiles i = f (b.tiles i) := by
  simp [Board.modifyTile]

lemma Board.modifyTile_other (b : Board) (i j : Nat) (f : Tile → Tile) (h : j ≠ i) :
    (b.modifyTile i f).tiles j = b.tiles j := by
  simp [Board.modifyTile, h]

/-- Add `d` to `neighbour_flags` of every tile in `ns` (the per-neighbour
`t.neighbour_flags += d` loops of `flag`; iterating over a Python set hits
each member exactly once, so the loop is a simultaneous update). -/
def Board.bumpFlags (b : Board) (ns : Finset Nat) (d : Int) : Board :=
  { b with tiles := fun j =>
      if j ∈ ns then
        { b.tiles j with neighbour_flags := (b.tiles j).neighbour_flags + d }
      else b.tiles j }

@[simp] lemma Board.bumpFlags_size (b : Board) (ns : Finset Nat) (d : Int) :
    (b.bumpFlags ns d).size = b.size := rfl

/-- The members of a finite slot set in ascending order; stands in for
Python's (order-unspecified) iteration over a `set` of tiles wherever a
loop folds a mutation over a set whose per-member effects commute. -/
def sortedSlots (s : Finset Nat) : List Nat :=
  (List.range (s.sup id + 1)).filter (fun j => j ∈ s)

/-- `set_mine`: mark slot `i` as a mine and increment the value of every
non-mine neighbour. -/
def Tile.set_mine (b : Board) (i : Nat) : Board :=
  let b1 := b.modifyTile i (fun t => { t with value := Tile.MINE })
  { b1 with tiles := fun j =>
      if j ∈ (b.tiles i).neighbours ∧ (b1.tiles j).is_mine = false then
        { b1.tiles j with value := (b1.tiles j).value + 1 }
      else b1.tiles j }

/-- `left_hold` on slot `i`. -/
def Tile.left_hold (b : Board) (i : Nat) : Board :=
  b.modifyTile i (fun t =>
    if t.covered = true ∧ t.flagged = false then { t with down := true } else t)

/-- `double_hold` on slot `i`: `left_hold` on the tile and on each of its
neighbours (the per-neighbour calls commute, applied in ascending slot
order). -/
def Tile.double_hold (b : Board) (i : Nat) : Board :=
  (sortedSlots ((b.tiles i).neighbours)).foldl Tile.left_hold (Tile.left_hold b i)

/-- `unhold` on slot `i`. -/
def Tile.unhold (b : Board) (i : Nat) : Board :=
  b.modifyTile i (fun t => if t.flagged = false then { t with down := false } else t)

/-- `basic_open` on slot `i`: returns the new board, the `effective` flag
and the set of tiles to search next. -/
def Tile.basic_open (b : Board) (i : Nat) (BFS : Bool) : Board × Bool × Finset Nat :=
  if (b.tiles i).flagged = true ∨ (b.tiles i).covered = false then (b, false, ∅)
  else if (b.tiles i).value = 0 ∨
      (BFS = true ∧ (b.tiles i).value = (b.tiles i).neighbour_flags) then
    (b.modifyTile i (fun t => { t with covered := false }), true, (b.tiles i).neighbours)
  else
    (b.modifyTile i (fun t => { t with covered := false }), true, ∅)

/-- The breadth-first loop of `open`, with explicit fuel bounding the
number of dequeues (`none` = fuel exhausted before the queue emptied).
The frontier sets are enqueued in ascending slot order (Python iterates a
set in unspecified order; the resulting board and changed-set do not
depend on it).  The `searched` accumulator mirrors the source, where the
`searched.add(t)` statement is commented out, so it is threaded through
unchanged. -/
def Tile.openAux (BFS test_op : Bool) :
    Nat → Board → List Nat → Finset Nat → Finset Nat → Option (Board × Finset Nat)
  | _, b, [], changed, searched => some (b, if test_op = true then searched else changed)
  | 0, _, _ :: _, _, _ => none
  | fuel + 1, b, i :: q, changed, searched =>
      Tile.openAux BFS test_op fuel (Tile.basic_open b i BFS).1
        (q ++ sortedSlots ((Tile.basic_open b i BFS).2.2))
        (if (Tile.basic_open b i BFS).2.1 = true then insert i changed else changed)
        searched

/-- Fuel bound for the loop: each dequeue either consumes a queue entry
without mutating, or opens a covered unflagged tile, spending its
potential `1 + card neighbours`. -/
def Board.potential (b : Board) : Nat :=
  Finset.sum (Finset.range b.size) (fun i =>
    if (b.tiles i).covered = true ∧ (b.tiles i).flagged = false then
      1 + (b.tiles i).neighbours.card
    else 0)

/-- `open` on slot `i` (named `openOp` because `open` is a Lean keyword):
run the breadth-first loop seeded with `i`. -/
def Tile.openOp (b : Board) (i : Nat) (BFS test_op : Bool) : Option (Board × Finset Nat) :=
  Tile.openAux BFS test_op (b.potential + 1) b [i] ∅ ∅

/-- The sequential per-neighbour opens of `double`: run `open` on each
listed slot in turn, accumulating the union of the changed-sets (Python
evaluates the generator's `t.open(BFS)` calls left to right and then
unions the results). -/
def doubleFold (BFS : Bool) : List Nat → Board × Finset Nat → Option (Board × Finset Nat)
  | [], acc => some acc
  | k :: rest, acc =>
      match Tile.openOp acc.1 k BFS false with
      | none => none
      | some r => doubleFold BFS rest (r.1, acc.2 ∪ r.2)

/-- `double` on slot `i`.  On a satisfied open tile Python evaluates
`set.union(*(t.open(BFS) for t in self.neighbours))`, which raises a
`TypeError` when the neighbour set is empty (`set.union` called with no
arguments); that exception is the `none` result. -/
def Tile.double (b : Board) (i : Nat) (BFS : Bool) : Option (Board × Finset Nat) :=
  if (b.tiles i).covered = false ∧ (b.tiles i).value = (b.tiles i).neighbour_flags then
    if (b.tiles i).neighbours = ∅ then none
    else doubleFold BFS (sortedSlots ((b.tiles i).neighbours)) (b, (∅ : Finset Nat))
  else some (b, ∅)

/-- One step of the easy-flag loop of `flag`: flag covered neighbour `j`
and increment `neighbour_flags` on each of `j`'s neighbours (whether or
not `j` was already flagged, exactly as the source does). -/
def Board.easyFlagStep (b : Board) (j : Nat) : Board :=
  (b.modifyTile j (fun t => { t with flagged := true })).bumpFlags
    ((b.tiles j).neighbours) 1

/-- `flag` on slot `i`: toggle, or the easy-flag deduction.  Both
comprehensions are evaluated on the pre-mutation state, as in the source;
the loop over `covered_neighbours` runs in ascending slot order (its per-
neighbour effects commute). -/
def Tile.flag (b : Board) (i : Nat) (easy_flag : Bool) : Board × Finset Nat :=
  if (b.tiles i).flagged = true then
    ((b.modifyTile i (fun t => { t with flagged := false })).bumpFlags
        ((b.tiles i).neighbours) (-1), {i})
  else if (b.tiles i).covered = true then
    ((b.modifyTile i (fun t => { t with flagged := true })).bumpFlags
        ((b.tiles i).neighbours) 1, {i})
  else if easy_flag = true then
    if (b.tiles i).value =
        (((b.tiles i).neighbours).filter (fun j => (b.tiles j).covered = true)).card then
      ((sortedSlots (((b.tiles i).neighbours).filter
          (fun j => (b.tiles j).covered = true))).foldl Board.easyFlagStep b,
        ((b.tiles i).neighbours).filter
          (fun j => (b.tiles j).covered = true ∧ (b.tiles j).flagged = false))
    else (b, ∅)
  else (b, ∅)

/-- Equality on all fields except `covered`: the frame of the opening
operations. -/
def sameButCovered (t u : Tile) : Prop :=
  u.x = t.x ∧ u.y = t.y ∧ u.value = t.value ∧ u.flagged = t.flagged ∧
  u.down = t.down ∧ u.status = t.status ∧ u.neighbours = t.neighbours ∧
  u.neighbour_flags = t.neighbour_flags

/-- The wiring precondition of the spec: every neighbour reference points
back into the board. -/
def Wired (b : Board) : Prop :=
  ∀ j < b.size, (b.tiles j).neighbours ⊆ Finset.range b.size

/-- The numbered border of a candidate zero-region `Z`: all neighbours of
`Z`-tiles that are not themselves in `Z`. -/
def borderOf (b : Board) (Z : Finset Nat) : Finset Nat :=
  (Z.biUnion (fun i => (b.tiles i).neighbours)) \ Z

/-- One round of zero-region reachability: add every tile of `Z` adjacent
to the current set. -/
def zstep (b : Board) (Z S : Finset Nat) : Finset Nat :=
  S ∪ Z.filter (fun j => ∃ i ∈ S, j ∈ (b.tiles i).neighbours)

/-- `n` rounds of zero-region reachability from `seed`; `Z ⊆ zreach … n`
states that the region `Z` is connected to the seed. -/
def zreach (b : Board) (Z : Finset Nat) (seed : Nat) : Nat → Finset Nat
  | 0 => {seed}
  | n + 1 => zstep b Z (zreach b Z seed n)

/-- The display code the spec claims `get_status` derives on demand from
the canonical state (`FLAGGED` if flagged, else `DOWN` if down, else
`COVERED` if covered, else the value). -/
def derivedStatus (t : Tile) : Int :=
  if t.flagged = true then Tile.FLAGGED
  else if t.down = true then Tile.DOWN
  else if t.covered = true then Tile.COVERED
  else t.value

/-- Python tile equality as the source defines it: `Tile` declares no
custom `__eq__`/`__hash__`, so two tiles are equal exactly when they are
the same object, i.e. the same board slot. -/
def tileIdEq (i j : Nat) : Prop := i = j

/-- Tile equality as the spec describes it: equal coordinate pairs. -/
def coordEq (b : Board) (i j : Nat) : Prop :=
  (b.tiles i).x = (b.tiles j).x ∧ (b.tiles i).y = (b.tiles j).y

instance (b : Board) (i j : Nat) : Decidable (coordEq b i j) := by
  unfold coordEq; infer_instance

instance (i j : Nat) : Decidable (tileIdEq i j) := by
  unfold tileIdEq; infer_instance

instance (b : Board) : Decidable (Wired b) := by
  unfold Wired; infer_instance

/-! ### Concrete boards used by counterexamples and witnesses -/

/-- A one-tile board (the degenerate 1×1 grid): no mines, no neighbours. -/
def lone : Board := { size := 1, tiles := fun _ => Tile.fresh 0 0 ∅ }

/-- The one-tile board after the player opens its only tile. -/
def loneOpen : Board := ((Tile.openOp lone 0 false false).getD (lone, ∅)).1

/-- A two-tile board, the tiles mutually adjacent. -/
def board2 : Board :=
  { size := 2, tiles := fun i =>
      if i = 0 then Tile.fresh 0 0 {1} else Tile.fresh 1 0 {0} }

/-- `board2` after construction places a mine on tile 1 and the player
flags tile 1: tile 0 has value 1 and neighbour-flag count 1. -/
def board2flagged : Board := (Tile.flag (Tile.set_mine board2 1) 1 false).1

/-- `board2flagged` after the player opens tile 0. -/
def board2open : Board :=
  ((Tile.openOp board2flagged 0 false false).getD (board2flagged, ∅)).1

/-- A two-tile board with tile 0 already open (value 0, no flags): the
satisfied chording position with a nonempty neighbour set. -/
def dbBoard : Board :=
  { size := 2, tiles := fun i =>
      if i = 0 then { Tile.fresh 0 0 {1} with covered := false }
      else Tile.fresh 1 0 {0} }

/-- A two-tile board whose two distinct tiles carry the same coordinates. -/
def boardDup : Board :=
  { size := 2, tiles := fun i =>
      if i = 0 then Tile.fresh 0 0 ∅ else Tile.fresh 0 0 ∅ }

/-- Neighbour slots of cell `i` on a 5×5 grid (row `i / 5`, column
`i % 5`). -/
def nbrs5 (i : Nat) : Finset Nat :=
  (Finset.range 25).filter (fun j =>
    (max (i / 5) (j / 5) - min (i / 5) (j / 5) ≤ 1) ∧
    (max (i % 5) (j % 5) - min (i % 5) (j % 5) ≤ 1) ∧ j ≠ i)

/-- The 5×5 board with zero mines, fully covered. -/
def board5 : Board :=
  { size := 25, tiles := fun i => Tile.fresh (Int.ofNat (i / 5)) (Int.ofNat (i % 5)) (nbrs5 i) }


/-! ### Basic lemmas about the embedding -/

lemma mem_sortedSlots (s : Finset Nat) (j : Nat) : j ∈ sortedSlots s ↔ j ∈ s := by
  simp only [sortedSlots, List.mem_filter, List.mem_range, decide_eq_true_eq]
  exact ⟨fun h => h.2, fun h => ⟨Nat.lt_succ_of_le (Finset.le_sup (f := id) h), h⟩⟩

lemma nodup_sortedSlots (s : Finset Nat) : (sortedSlots s).Nodup :=
  (List.nodup_range _).filter _

lemma length_sortedSlots (s : Finset Nat) : (sortedSlots s).length = s.card := by
  have h1 : (sortedSlots s).toFinset = s := by
    ext j; simp [List.mem_toFinset, mem_sortedSlots]
  calc (sortedSlots s).length = (sortedSlots s).toFinset.card :=
        (List.toFinset_card_of_nodup (nodup_sortedSlots s)).symm
    _ = s.card := by rw [h1]

lemma sortedSlots_empty : sortedSlots ∅ = [] := by
  have h := nodup_sortedSlots (∅ : Finset Nat)
  cases he : sortedSlots (∅ : Finset Nat) with
  | nil => rfl
  | cons a l =>
    exfalso
    have : a ∈ sortedSlots (∅ : Finset Nat) := by rw [he]; exact List.mem_cons_self a l
    rw [mem_sortedSlots] at this
    exact absurd this (Finset.not_mem_empty a)

lemma sameButCovered_refl (t : Tile) : sameButCovered t t :=
  ⟨rfl, rfl, rfl, rfl, rfl, rfl, rfl, rfl⟩

lemma sameButCovered_trans {t u v : Tile} (h1 : sameButCovered t u)
    (h2 : sameButCovered u v) : sameButCovered t v := by
  obtain ⟨a1, b1, c1, d1, e1, f1, g1, i1⟩ := h1
  obtain ⟨a2, b2, c2, d2, e2, f2, g2, i2⟩ := h2
  exact ⟨a2.trans a1, b2.trans b1, c2.trans c1, d2.trans d1,
    e2.trans e1, f2.trans f1, g2.trans g1, i2.trans i1⟩

lemma sameButCovered_uncover (b : Board) (i j : Nat) :
    sameButCovered (b.tiles j)
      ((b.modifyTile i (fun t => { t with covered := false })).tiles j) := by
  by_cases h : j = i
  · subst h
    rw [Board.modifyTile_self]
    exact ⟨rfl, rfl, rfl, rfl, rfl, rfl, rfl, rfl⟩
  · rw [Board.modifyTile_other b i j _ h]
    exact sameButCovered_refl _

lemma uncover_mono (b : Board) (i j : Nat) (h : (b.tiles j).covered = false) :
    ((b.modifyTile i (fun t => { t with covered := false })).tiles j).covered = false := by
  by_cases hji : j = i
  · subst hji; rw [Board.modifyTile_self]
  · rw [Board.modifyTile_other b i j _ hji]; exact h

lemma basic_open_skip (b : Board) (i : Nat) (BFS : Bool)
    (h : (b.tiles i).flagged = true ∨ (b.tiles i).covered = false) :
    Tile.basic_open b i BFS = (b, false, ∅) := by
  unfold Tile.basic_open; rw [if_pos h]

lemma basic_open_eff (b : Board) (i : Nat) (BFS : Bool)
    (hf : (b.tiles i).flagged = false) (hc : (b.tiles i).covered = true) :
    Tile.basic_open b i BFS =
      (b.modifyTile i (fun t => { t with covered := false }), true,
        if (b.tiles i).value = 0 ∨
            (BFS = true ∧ (b.tiles i).value = (b.tiles i).neighbour_flags)
        then (b.tiles i).neighbours else ∅) := by
  unfold Tile.basic_open
  rw [if_neg (by simp [hf, hc])]
  split_ifs with h
  · rfl
  · rfl

lemma basic_open_cases (b : Board) (i : Nat) (BFS : Bool) :
    Tile.basic_open b i BFS = (b, false, ∅) ∨
      ((b.tiles i).flagged = false ∧ (b.tiles i).covered = true ∧
        (Tile.basic_open b i BFS).1 =
          b.modifyTile i (fun t => { t with covered := false }) ∧
        (Tile.basic_open b i BFS).2.1 = true ∧
        (Tile.basic_open b i BFS).2.2 ⊆ (b.tiles i).neighbours) := by
  by_cases hf : (b.tiles i).flagged = true
  · exact Or.inl (basic_open_skip b i BFS (Or.inl hf))
  · have hf' : (b.tiles i).flagged = false := by
      cases hfv : (b.tiles i).flagged
      · rfl
      · exact absurd hfv hf
    by_cases hc : (b.tiles i).covered = true
    · right
      rw [basic_open_eff b i BFS hf' hc]
      refine ⟨hf', hc, rfl, rfl, ?_⟩
      split_ifs
      · exact Finset.Subset.refl _
      · exact Finset.empty_subset _
    · have hc' : (b.tiles i).covered = false := by
        cases hcv : (b.tiles i).covered
        · rfl
        · exact absurd hcv hc
      exact Or.inl (basic_open_skip b i BFS (Or.inr hc'))

lemma basic_open_frame (b : Board) (i : Nat) (BFS : Bool) (j : Nat) :
    sameButCovered (b.tiles j) ((Tile.basic_open b i BFS).1.tiles j) ∧
      ((b.tiles j).covered = false → ((Tile.basic_open b i BFS).1.tiles j).covered = false) ∧
      (Tile.basic_open b i BFS).1.size = b.size := by
  rcases basic_open_cases b i BFS with h | ⟨_, _, h1, _, _⟩
  · rw [h]; exact ⟨sameButCovered_refl _, fun hcov => hcov, rfl⟩
  · rw [h1]; exact ⟨sameButCovered_uncover b i j, uncover_mono b i j, rfl⟩

lemma openAux_nil (BFS top : Bool) (fuel : Nat) (b : Board) (ch s : Finset Nat) :
    Tile.openAux BFS top fuel b [] ch s = some (b, if top = true then s else ch) := by
  cases fuel <;> rfl

lemma openAux_zero_cons (BFS top : Bool) (b : Board) (i : Nat) (q : List Nat)
    (ch s : Finset Nat) : Tile.openAux BFS top 0 b (i :: q) ch s = none := rfl

lemma openAux_succ_cons (BFS top : Bool) (fuel : Nat) (b : Board) (i : Nat)
    (q : List Nat) (ch s : Finset Nat) :
    Tile.openAux BFS top (fuel + 1) b (i :: q) ch s =
      Tile.openAux BFS top fuel (Tile.basic_open b i BFS).1
        (q ++ sortedSlots ((Tile.basic_open b i BFS).2.2))
        (if (Tile.basic_open b i BFS).2.1 = true then insert i ch else ch) s := rfl

/-- Frame and monotonicity of the breadth-first loop: only `covered` ever
changes, and only from `true` to `false`. -/
lemma openAux_frame (BFS top : Bool) :
    ∀ fuel b q ch s b2 S, Tile.openAux BFS top fuel b q ch s = some (b2, S) →
      b2.size = b.size ∧ (∀ j, sameButCovered (b.tiles j) (b2.tiles j)) ∧
      (∀ j, (b.tiles j).covered = false → (b2.tiles j).covered = false) := by
  intro fuel
  induction fuel with
  | zero =>
    intro b q ch s b2 S h
    cases q with
    | nil =>
      rw [openAux_nil] at h
      simp only [Option.some.injEq, Prod.mk.injEq] at h
      obtain ⟨h1, _⟩ := h
      subst h1
      exact ⟨rfl, fun j => sameButCovered_refl _, fun j hc => hc⟩
    | cons i rest => exact Option.noConfusion h
  | succ fuel ih =>
    intro b q ch s b2 S h
    cases q with
    | nil =>
      rw [openAux_nil] at h
      simp only [Option.some.injEq, Prod.mk.injEq] at h
      obtain ⟨h1, _⟩ := h
      subst h1
      exact ⟨rfl, fun j => sameButCovered_refl _, fun j hc => hc⟩
    | cons i rest =>
      rw [openAux_succ_cons] at h
      obtain ⟨hsz, hframe, hmono⟩ := ih _ _ _ _ _ _ h
      refine ⟨hsz.trans (basic_open_frame b i BFS 0).2.2, ?_, ?_⟩
      · intro j
        exact sameButCovered_trans (basic_open_frame b i BFS j).1 (hframe j)
      · intro j hc
        exact hmono j ((basic_open_frame b i BFS j).2.1 hc)

/-- Changed-set tracking (normal mode): the returned set is the initial
accumulator plus exactly the tiles whose `covered` flipped during the
loop. -/
lemma openAux_changed (BFS : Bool) :
    ∀ fuel b q ch s b2 S, Tile.openAux BFS false fuel b q ch s = some (b2, S) →
      ∀ j, (j ∈ S ↔ j ∈ ch ∨
        ((b.tiles j).covered = true ∧ (b2.tiles j).covered = false)) := by
  intro fuel
  induction fuel with
  | zero =>
    intro b q ch s b2 S h
    cases q with
    | nil =>
      rw [openAux_nil] at h
      simp only [Option.some.injEq, Prod.mk.injEq] at h
      obtain ⟨h1, h2⟩ := h
      subst h1
      simp only [if_neg (by simp : ¬(false = true))] at h2
      subst h2
      intro j
      constructor
      · exact fun hj => Or.inl hj
      · rintro (hj | ⟨hc1, hc2⟩)
        · exact hj
        · rw [hc1] at hc2; exact Bool.noConfusion hc2
    | cons i rest => exact Option.noConfusion h
  | succ fuel ih =>
    intro b q ch s b2 S h
    cases q with
    | nil =>
      rw [openAux_nil] at h
      simp only [Option.some.injEq, Prod.mk.injEq] at h
      obtain ⟨h1, h2⟩ := h
      subst h1
      simp only [if_neg (by simp : ¬(false = true))] at h2
      subst h2
      intro j
      constructor
      · exact fun hj => Or.inl hj
      · rintro (hj | ⟨hc1, hc2⟩)
        · exact hj
        · rw [hc1] at hc2; exact Bool.noConfusion hc2
    | cons i rest =>
      rw [openAux_succ_cons] at h
      have hrec := ih _ _ _ _ _ _ h
      have hmono := (openAux_frame BFS false _ _ _ _ _ _ _ h).2.2
      rcases basic_open_cases b i BFS with hcase | ⟨hf, hc, h1, h2, _⟩
      · intro j
        rw [hcase] at hrec
        simp only [if_neg (by simp : ¬(false = true))] at hrec
        exact hrec j
      · intro j
        rw [h1] at hrec hmono
        rw [h2] at hrec
        simp only [if_pos rfl] at hrec
        rw [hrec j]
        by_cases hji : j = i
        · subst hji
          have hb1 : ((b.modifyTile j (fun t =>
              { t with covered := false })).tiles j).covered = false := by
            rw [Board.modifyTile_self]
          constructor
          · intro _
            exact Or.inr ⟨hc, hmono j hb1⟩
          · intro _
            exact Or.inl (Finset.mem_insert_self j ch)
        · have hb1 : ((b.modifyTile i (fun t =>
              { t with covered := false })).tiles j) = b.tiles j :=
            Board.modifyTile_other b i j _ hji
          rw [hb1]
          constructor
          · rintro (hj | hcc)
            · rcases Finset.mem_insert.mp hj with hj' | hj'
              · exact absurd hj' hji
              · exact Or.inl hj'
            · exact Or.inr hcc
          · rintro (hj | hcc)
            · exact Or.inl (Finset.mem_insert_of_mem hj)
            · exact Or.inr hcc

/-- Opening a covered, unflagged, in-range tile spends its share of the
potential. -/
lemma potential_uncover (b : Board) (i : Nat) (hi : i < b.size)
    (hc : (b.tiles i).covered = true) (hf : (b.tiles i).flagged = false) :
    b.potential =
      (b.modifyTile i (fun t => { t with covered := false })).potential +
        (1 + (b.tiles i).neighbours.card) := by
  classical
  set b1 := b.modifyTile i (fun t => { t with covered := false }) with hb1
  have hmem : i ∈ Finset.range b.size := Finset.mem_range.mpr hi
  have hmem1 : i ∈ Finset.range b1.size := by
    rw [hb1, Board.modifyTile_size]; exact hmem
  set g := fun j => if (b.tiles j).covered = true ∧ (b.tiles j).flagged = false then
    1 + (b.tiles j).neighbours.card else 0 with hg
  set g1 := fun j => if (b1.tiles j).covered = true ∧ (b1.tiles j).flagged = false then
    1 + (b1.tiles j).neighbours.card else 0 with hg1
  have hsame : ∀ j ∈ (Finset.range b.size).erase i, g1 j = g j := by
    intro j hj
    have hji : j ≠ i := (Finset.mem_erase.mp hj).1
    rw [hg, hg1]
    simp only [hb1, Board.modifyTile_other b i j _ hji]
  have hgi : g i = 1 + (b.tiles i).neighbours.card := by
    rw [hg]; exact if_pos ⟨hc, hf⟩
  have hgi1 : g1 i = 0 := by
    have hcov : (b1.tiles i).covered = false := by rw [hb1, Board.modifyTile_self]
    rw [hg1]
    exact if_neg (by rintro ⟨hcc, _⟩; rw [hcov] at hcc; exact Bool.noConfusion hcc)
  have e1 : b.potential = Finset.sum ((Finset.range b.size).erase i) g + g i := by
    unfold Board.potential
    rw [Finset.sum_erase_add _ _ hmem]
  have e2 : b1.potential = Finset.sum ((Finset.range b.size).erase i) g1 + g1 i := by
    unfold Board.potential
    rw [hb1, Board.modifyTile_size]
    rw [Finset.sum_erase_add _ _ hmem]
  rw [e1, e2, Finset.sum_congr rfl hsame, hgi, hgi1]
  omega

/-- Termination of the breadth-first loop: on a wired board, fuel
`queue length + potential` suffices to empty the queue. -/
lemma openAux_total (BFS top : Bool) :
    ∀ fuel b q ch s, Wired b → (∀ j ∈ q, j < b.size) →
      q.length + b.potential ≤ fuel →
      (Tile.openAux BFS top fuel b q ch s).isSome = true := by
  intro fuel
  induction fuel with
  | zero =>
    intro b q ch s _ _ hb
    cases q with
    | nil => rw [openAux_nil]; rfl
    | cons i rest => simp [List.length_cons] at hb
  | succ fuel ih =>
    intro b q ch s hw hq hb
    cases q with
    | nil => rw [openAux_nil]; rfl
    | cons i rest =>
      rw [openAux_succ_cons]
      have hi : i < b.size := hq i (List.mem_cons_self i rest)
      rcases basic_open_cases b i BFS with hcase | ⟨hf, hc, h1, _, h3⟩
      · rw [hcase]
        simp only [sortedSlots_empty, List.append_nil]
        refine ih b rest ch s hw (fun j hj => hq j (List.mem_cons_of_mem i hj)) ?_
        simp only [List.length_cons] at hb
        omega
      · set b1 := b.modifyTile i (fun t => { t with covered := false }) with hb1def
        have hframe : ∀ j, sameButCovered (b.tiles j) (b1.tiles j) :=
          fun j => sameButCovered_uncover b i j
        have hnb : ∀ j, (b1.tiles j).neighbours = (b.tiles j).neighbours :=
          fun j => (hframe j).2.2.2.2.2.2.1
        have hw1 : Wired b1 := by
          intro j hj
          rw [hnb j]
          exact hw j (by rw [hb1def, Board.modifyTile_size] at hj; exact hj)
        have hpot : b.potential = b1.potential + (1 + (b.tiles i).neighbours.card) :=
          potential_uncover b i hi hc hf
        rw [h1]
        have hqmem : ∀ j ∈ rest ++ sortedSlots (Tile.basic_open b i BFS).2.2,
            j < b1.size := by
          intro j hj
          rw [hb1def, Board.modifyTile_size]
          rcases List.mem_append.mp hj with hj' | hj'
          · exact hq j (List.mem_cons_of_mem i hj')
          · rw [mem_sortedSlots] at hj'
            have := hw i hi (h3 hj')
            exact Finset.mem_range.mp this
        refine ih b1 _ _ s hw1 hqmem ?_
        rw [List.length_append, length_sortedSlots]
        have hcard : ((Tile.basic_open b i BFS).2.2).card ≤
            (b.tiles i).neighbours.card := Finset.card_le_card h3
        simp only [List.length_cons] at hb
        omega

/-- Openability of any in-range tile of a wired board: the fuel chosen by
`openOp` always suffices. -/
lemma openOp_total (b : Board) (i : Nat) (BFS top : Bool)
    (hw : Wired b) (hi : i < b.size) :
    (Tile.openOp b i BFS top).isSome = true := by
  unfold Tile.openOp
  refine openAux_total BFS top (b.potential + 1) b [i] ∅ ∅ hw ?_ ?_
  · intro j hj
    rw [List.mem_singleton] at hj
    subst hj
    exact hi
  · simp only [List.length_singleton]
    omega

/-- Frame and monotonicity, specialised to `openOp`. -/
lemma openOp_frame (b : Board) (i : Nat) (BFS top : Bool) (b2 : Board) (S : Finset Nat)
    (h : Tile.openOp b i BFS top = some (b2, S)) :
    b2.size = b.size ∧ (∀ j, sameButCovered (b.tiles j) (b2.tiles j)) ∧
      (∀ j, (b.tiles j).covered = false → (b2.tiles j).covered = false) :=
  openAux_frame BFS top _ _ _ _ _ _ _ h

/-- Changed-set tracking, specialised to `openOp` in normal mode. -/
lemma openOp_changed (b : Board) (i : Nat) (BFS : Bool) (b2 : Board) (S : Finset Nat)
    (h : Tile.openOp b i BFS false = some (b2, S)) :
    ∀ j, (j ∈ S ↔ (b.tiles j).covered = true ∧ (b2.tiles j).covered = false) := by
  intro j
  have := openAux_changed BFS _ _ _ _ _ _ _ h j
  rw [this]
  simp

lemma bool_not_true {x : Bool} (h : ¬ x = true) : x = false := by
  cases x
  · rfl
  · exact absurd rfl h

lemma bool_le_of_imp {x y : Bool} (h : y = false → x = false) : x ≤ y := by
  cases y
  · rw [h rfl]
  · exact Bool.le_true x

/-- `open` opens its seed whenever the seed is unflagged. -/
lemma openOp_opens_seed (b : Board) (i : Nat) (BFS : Bool) (b2 : Board) (S : Finset Nat)
    (hf : (b.tiles i).flagged = false)
    (h : Tile.openOp b i BFS false = some (b2, S)) :
    (b2.tiles i).covered = false := by
  by_cases hc : (b.tiles i).covered = true
  · unfold Tile.openOp at h
    rw [openAux_succ_cons] at h
    have hmono := (openAux_frame BFS false _ _ _ _ _ _ _ h).2.2
    apply hmono
    rw [basic_open_eff b i BFS hf hc]
    rw [Board.modifyTile_self]
  · exact (openOp_frame b i BFS false b2 S h).2.2 i (bool_not_true hc)

lemma bumpFlags_covered (b : Board) (ns : Finset Nat) (d : Int) (j : Nat) :
    ((b.bumpFlags ns d).tiles j).covered = (b.tiles j).covered := by
  unfold Board.bumpFlags
  dsimp only
  split_ifs <;> rfl

lemma easyFlagStep_covered (b : Board) (k j : Nat) :
    ((Board.easyFlagStep b k).tiles j).covered = (b.tiles j).covered := by
  unfold Board.easyFlagStep
  rw [bumpFlags_covered]
  by_cases hjk : j = k
  · subst hjk; rw [Board.modifyTile_self]
  · rw [Board.modifyTile_other _ _ _ _ hjk]

lemma foldl_easyFlagStep_covered (l : List Nat) :
    ∀ b j, (((l.foldl Board.easyFlagStep b)).tiles j).covered = (b.tiles j).covered := by
  induction l with
  | nil => intro b j; rfl
  | cons k rest ih =>
    intro b j
    rw [List.foldl_cons, ih, easyFlagStep_covered]

/-- `flag` never touches `covered`. -/
lemma flag_covered (b : Board) (i : Nat) (easy : Bool) (j : Nat) :
    ((Tile.flag b i easy).1.tiles j).covered = (b.tiles j).covered := by
  unfold Tile.flag
  split_ifs with h1 h2 h3 h4
  · dsimp only
    rw [bumpFlags_covered]
    by_cases hji : j = i
    · subst hji; rw [Board.modifyTile_self]
    · rw [Board.modifyTile_other _ _ _ _ hji]
  · dsimp only
    rw [bumpFlags_covered]
    by_cases hji : j = i
    · subst hji; rw [Board.modifyTile_self]
    · rw [Board.modifyTile_other _ _ _ _ hji]
  · dsimp only
    rw [foldl_easyFlagStep_covered]
  · rfl
  · rfl

lemma left_hold_covered (b : Board) (i j : Nat) :
    ((Tile.left_hold b i).tiles j).covered = (b.tiles j).covered := by
  unfold Tile.left_hold
  by_cases hji : j = i
  · subst hji
    rw [Board.modifyTile_self]
    split_ifs <;> rfl
  · rw [Board.modifyTile_other _ _ _ _ hji]

lemma foldl_left_hold_covered (l : List Nat) :
    ∀ b j, (((l.foldl Tile.left_hold b)).tiles j).covered = (b.tiles j).covered := by
  induction l with
  | nil => intro b j; rfl
  | cons k rest ih =>
    intro b j
    rw [List.foldl_cons, ih, left_hold_covered]

lemma double_hold_covered (b : Board) (i j : Nat) :
    ((Tile.double_hold b i).tiles j).covered = (b.tiles j).covered := by
  unfold Tile.double_hold
  rw [foldl_left_hold_covered, left_hold_covered]

lemma unhold_covered (b : Board) (i j : Nat) :
    ((Tile.unhold b i).tiles j).covered = (b.tiles j).covered := by
  unfold Tile.unhold
  by_cases hji : j = i
  · subst hji
    rw [Board.modifyTile_self]
    split_ifs <;> rfl
  · rw [Board.modifyTile_other _ _ _ _ hji]

/-- The sequential opens of `double` only uncover tiles. -/
lemma doubleFold_mono (BFS : Bool) :
    ∀ l (acc : Board × Finset Nat) b2 S2,
      doubleFold BFS l acc = some (b2, S2) →
      ∀ j, (acc.1.tiles j).covered = false → (b2.tiles j).covered = false := by
  intro l
  induction l with
  | nil =>
    intro acc b2 S2 h j hcov
    unfold doubleFold at h
    simp only [Option.some.injEq] at h
    rw [h] at hcov
    exact hcov
  | cons k rest ih =>
    intro acc b2 S2 h j hcov
    unfold doubleFold at h
    cases hop : Tile.openOp acc.1 k BFS false with
    | none => rw [hop] at h; exact Option.noConfusion h
    | some r =>
      rw [hop] at h
      exact ih _ _ _ h j ((openOp_frame acc.1 k BFS false r.1 r.2 (by rw [hop])).2.2 j hcov)

/-! ### Claim theorems -/

/-- C7: on every wired finite board, `open` terminates — the breadth-first
loop empties its queue within the explicit dequeue bound
`potential + 1`, because a tile is effective (flips from covered to open)
at most once and re-examining an already-open or flagged tile enqueues
nothing. -/
theorem claim_C7_open_terminates (b : Board) (i : Nat) (BFS test_op : Bool)
    (hw : Wired b) (hi : i < b.size) :
    (Tile.openOp b i BFS test_op).isSome = true :=
  openOp_total b i BFS test_op hw hi

theorem claim_C7_witness :
    Wired lone ∧ 0 < lone.size ∧ (Tile.openOp lone 0 false false).isSome = true :=
  ⟨by decide, by decide,
    claim_C7_open_terminates lone 0 false false (by decide) (by decide)⟩

/-- C8: once a tile's `covered` is false it never becomes true again under
any core operation — `open` and `double` only lower it (Bool order:
`false ≤ true`), `flag` and the hold operations leave it unchanged — and
only the explicit `recover` resets it to true. -/
theorem claim_C8_covered_irreversible (b : Board) (i j : Nat) (BFS top easy : Bool) :
    (((Tile.openOp b i BFS top).getD (b, ∅)).1.tiles j).covered ≤ (b.tiles j).covered ∧
    ((Tile.flag b i easy).1.tiles j).covered = (b.tiles j).covered ∧
    (((Tile.double b i BFS).getD (b, ∅)).1.tiles j).covered ≤ (b.tiles j).covered ∧
    ((Tile.left_hold b i).tiles j).covered = (b.tiles j).covered ∧
    ((Tile.double_hold b i).tiles j).covered = (b.tiles j).covered ∧
    ((Tile.unhold b i).tiles j).covered = (b.tiles j).covered ∧
    (Tile.recover (b.tiles j)).covered = true := by
  refine ⟨?_, flag_covered b i easy j, ?_, left_hold_covered b i j,
    double_hold_covered b i j, unhold_covered b i j, rfl⟩
  · cases hop : Tile.openOp b i BFS top with
    | none => exact le_refl _
    | some r =>
      apply bool_le_of_imp
      intro hcov
      exact (openOp_frame b i BFS top r.1 r.2 (by rw [hop])).2.2 j hcov
  · unfold Tile.double
    split_ifs with h1 h2
    · exact le_refl _
    · cases hop : doubleFold BFS (sortedSlots ((b.tiles i).neighbours)) (b, ∅) with
      | none => exact le_refl _
      | some r =>
        apply bool_le_of_imp
        intro hcov
        exact doubleFold_mono BFS _ _ r.1 r.2 (by rw [hop]) j hcov
    · exact le_refl _

/-- C10: `open` (and each underlying `basic_open` step) mutates only the
`covered` field, and only of the tiles it reports: every other field of
every tile is unchanged, and a tile whose `covered` changed is in the
returned changed-set. -/
theorem claim_C10_open_frame (b : Board) (i j : Nat) (BFS top : Bool) :
    sameButCovered (b.tiles j) (((Tile.openOp b i BFS top).getD (b, ∅)).1.tiles j) ∧
    ((((Tile.openOp b i BFS false).getD (b, ∅)).1.tiles j).covered = (b.tiles j).covered ∨
      j ∈ ((Tile.openOp b i BFS false).getD (b, ∅)).2) ∧
    sameButCovered (b.tiles j) ((Tile.basic_open b i BFS).1.tiles j) ∧
    ((Tile.basic_open b i BFS).1.tiles j = b.tiles j ∨ j = i) := by
  refine ⟨?_, ?_, (basic_open_frame b i BFS j).1, ?_⟩
  · cases hop : Tile.openOp b i BFS top with
    | none => exact sameButCovered_refl _
    | some r => exact (openOp_frame b i BFS top r.1 r.2 (by rw [hop])).2.1 j
  · cases hop : Tile.openOp b i BFS false with
    | none => exact Or.inl rfl
    | some r =>
      by_cases hchanged : (r.1.tiles j).covered = (b.tiles j).covered
      · exact Or.inl hchanged
      · right
        have hch := openOp_changed b i BFS r.1 r.2 (by rw [hop]) j
        simp only [Option.getD_some]
        rw [hch]
        cases hc0 : (b.tiles j).covered
        · exfalso
          apply hchanged
          rw [(openOp_frame b i BFS false r.1 r.2 (by rw [hop])).2.2 j hc0, hc0]
        · refine ⟨rfl, ?_⟩
          cases hc1 : (r.1.tiles j).covered
          · rfl
          · exact absurd (hc1.trans hc0.symm) hchanged
  · rcases basic_open_cases b i BFS with hcase | ⟨_, _, h1, _, _⟩
    · rw [hcase]
      exact Or.inl rfl
    · by_cases hji : j = i
      · exact Or.inr hji
      · rw [h1]
        exact Or.inl (Board.modifyTile_other b i j _ hji)

/-- C3 counterexample: after opening the single 0-valued tile of the
1×1 board, `get_status` still reports `COVERED` (9) although the tile is
open with value 0, so the status is stale relative to the canonical
state. -/
theorem claim_C3_counterexample :
    (loneOpen.tiles 0).covered = false ∧
    Tile.get_status (loneOpen.tiles 0) = Tile.COVERED ∧
    derivedStatus (loneOpen.tiles 0) = 0 ∧
    Tile.get_status (loneOpen.tiles 0) ≠ derivedStatus (loneOpen.tiles 0) := by
  refine ⟨by decide, by decide, by decide, by decide⟩

/-- C5 (code bug): `open` with `test_op = true` returns the *empty* set —
the `searched.add(t)` accumulation is commented out in the source — even
though the very same call (run with `test_op = false`) examines and
changes the seed tile. -/
theorem claim_C5_test_op_returns_empty :
    (Tile.openOp lone 0 false true).map Prod.snd = some ∅ ∧
    (Tile.openOp lone 0 false false).map Prod.snd = some {0} := by
  refine ⟨by decide, by decide⟩

/-- C6 (code bug): `double` on the opened lone tile — a reachable state,
`loneOpen` is the result of `open` on the fresh 1×1 board — satisfies the
chording condition with an empty neighbour set, and Python's
`set.union()` call with no arguments raises a `TypeError` instead of
returning an empty changed-set. -/
theorem claim_C6_double_raises_on_lone_tile :
    (Tile.openOp lone 0 false false).map (fun r => r.1.tiles 0) = some (loneOpen.tiles 0) ∧
    (loneOpen.tiles 0).neighbours = ∅ ∧
    Tile.double loneOpen 0 false = none := by
  refine ⟨by decide, by decide, by rfl⟩

/-- C4 counterexample: the opened lone tile is open and satisfied
(`value = neighbour_flags = 0`), yet `double` does not return any
changed-set at all — the call raises (`isNone`), rather than returning
the empty union over zero neighbours. -/
theorem claim_C4_counterexample :
    (loneOpen.tiles 0).covered = false ∧
    (loneOpen.tiles 0).value = (loneOpen.tiles 0).neighbour_flags ∧
    (Tile.double loneOpen 0 false).isNone = true := by
  refine ⟨by decide, by decide, by decide⟩

/-- C9 counterexample: two distinct tiles (slots 0 and 1) carrying the
same coordinates `(0, 0)` have equal coordinate pairs but do not compare
equal — the source class defines no `__eq__`/`__hash__`, so Python
compares tiles by object identity. -/
theorem claim_C9_counterexample : coordEq boardDup 0 1 ∧ ¬ tileIdEq 0 1 := by
  refine ⟨by decide, by decide⟩

/-- C9 (amended): tile equality is object identity; it coincides with
coordinate-pair equality exactly on boards whose tiles carry pairwise
distinct coordinates. -/
theorem claim_C9_amended_identity (b : Board) (i j : Nat)
    (hinj : ∀ i2 < b.size, ∀ j2 < b.size, coordEq b i2 j2 → i2 = j2)
    (hi : i < b.size) (hj : j < b.size) :
    tileIdEq i j ↔ coordEq b i j := by
  constructor
  · intro h
    have h' : i = j := h
    subst h'
    exact ⟨rfl, rfl⟩
  · intro h
    exact hinj i hi j hj h

theorem claim_C9_witness :
    (∀ i2 < board2.size, ∀ j2 < board2.size, coordEq board2 i2 j2 → i2 = j2) ∧
    0 < board2.size ∧ 1 < board2.size ∧ (tileIdEq 0 1 ↔ coordEq board2 0 1) :=
  ⟨by decide, by decide, by decide,
    claim_C9_amended_identity board2 0 1 (by decide) (by decide) (by decide)⟩

/-- C1 (code bug): starting from the wired 2-tile board, place a mine on
tile 1, flag tile 1, open tile 0 (all core operations); the easy-flag
call on tile 0 then re-counts the already-flagged covered neighbour:
afterwards tile 0's `neighbour_flags` is 2 although exactly 1 of its
neighbours is flagged, so the spec's counter invariant is broken. -/
theorem claim_C1_easy_flag_overcounts :
    ((Tile.flag board2open 0 true).1.tiles 0).neighbour_flags = 2 ∧
    (((board2open.tiles 0).neighbours).filter
      (fun j => ((Tile.flag board2open 0 true).1.tiles j).flagged = true)).card = 1 ∧
    (Tile.flag board2open 0 true).2 = ∅ := by
  refine ⟨by decide, by decide, by decide⟩

/-- Full behaviour of the sequential opens of `double`: frame, covered
monotonicity, changed-set = all tiles that flipped, and every listed
unflagged slot ends up open. -/
lemma doubleFold_spec (BFS : Bool) :
    ∀ (l : List Nat) (ab : Board) (aS : Finset Nat) b2 S2,
      doubleFold BFS l (ab, aS) = some (b2, S2) →
      b2.size = ab.size ∧
      (∀ j, sameButCovered (ab.tiles j) (b2.tiles j)) ∧
      (∀ j, (ab.tiles j).covered = false → (b2.tiles j).covered = false) ∧
      (∀ j, j ∈ S2 ↔ j ∈ aS ∨
        ((ab.tiles j).covered = true ∧ (b2.tiles j).covered = false)) ∧
      (∀ k ∈ l, (ab.tiles k).flagged = false → (b2.tiles k).covered = false) := by
  intro l
  induction l with
  | nil =>
    intro ab aS b2 S2 h
    unfold doubleFold at h
    simp only [Option.some.injEq, Prod.mk.injEq] at h
    obtain ⟨h1, h2⟩ := h
    subst h1
    subst h2
    refine ⟨rfl, fun j => sameButCovered_refl _, fun j hc => hc, ?_, ?_⟩
    · intro j
      constructor
      · exact Or.inl
      · rintro (hj | ⟨hc1, hc2⟩)
        · exact hj
        · rw [hc1] at hc2; exact Bool.noConfusion hc2
    · intro k hk
      exact absurd hk (List.not_mem_nil k)
  | cons k0 rest ih =>
    intro ab aS b2 S2 h
    unfold doubleFold at h
    cases hop : Tile.openOp ab k0 BFS false with
    | none => rw [hop] at h; exact Option.noConfusion h
    | some r =>
      obtain ⟨rb, rS⟩ := r
      rw [hop] at h
      have hfr0 := openOp_frame ab k0 BFS false rb rS hop
      have hch0 := openOp_changed ab k0 BFS rb rS hop
      obtain ⟨hsz, hfr, hmono, hch, hlist⟩ := ih rb (aS ∪ rS) b2 S2 h
      refine ⟨hsz.trans hfr0.1, fun j => sameButCovered_trans (hfr0.2.1 j) (hfr j),
        fun j hc => hmono j (hfr0.2.2 j hc), ?_, ?_⟩
      · intro j
        rw [hch j, Finset.mem_union, hch0 j]
        constructor
        · rintro ((hj | ⟨h1, h2⟩) | ⟨h1, h2⟩)
          · exact Or.inl hj
          · exact Or.inr ⟨h1, hmono j h2⟩
          · have hab : (ab.tiles j).covered = true := by
              cases hc : (ab.tiles j).covered
              · rw [hfr0.2.2 j hc] at h1; exact Bool.noConfusion h1
              · rfl
            exact Or.inr ⟨hab, h2⟩
        · rintro (hj | ⟨h1, h2⟩)
          · exact Or.inl (Or.inl hj)
          · by_cases hrb : (rb.tiles j).covered = true
            · exact Or.inr ⟨hrb, h2⟩
            · exact Or.inl (Or.inr ⟨h1, bool_not_true hrb⟩)
      · intro k hk hkf
        rcases List.mem_cons.mp hk with hk0 | hk0
        · subst hk0
          exact hmono k (openOp_opens_seed ab k BFS rb rS hkf hop)
        · refine hlist k hk0 ?_
          rw [(hfr0.2.1 k).2.2.2.1]
          exact hkf

/-- On a wired board the sequential opens of `double` never run out of
fuel. -/
lemma doubleFold_total (BFS : Bool) :
    ∀ (l : List Nat) (ab : Board) (aS : Finset Nat), Wired ab →
      (∀ k ∈ l, k < ab.size) →
      (doubleFold BFS l (ab, aS)).isSome = true := by
  intro l
  induction l with
  | nil => intro ab aS _ _; rfl
  | cons k0 rest ih =>
    intro ab aS hw hk
    unfold doubleFold
    have h0 : (Tile.openOp ab k0 BFS false).isSome = true :=
      openOp_total ab k0 BFS false hw (hk k0 (List.mem_cons_self k0 rest))
    cases hop : Tile.openOp ab k0 BFS false with
    | none => rw [hop] at h0; exact Bool.noConfusion h0
    | some r =>
      obtain ⟨rb, rS⟩ := r
      have hfr := openOp_frame ab k0 BFS false rb rS hop
      have hw1 : Wired rb := by
        intro j hj
        rw [(hfr.2.1 j).2.2.2.2.2.2.1, hfr.1]
        exact hw j (hfr.1 ▸ hj)
      refine ih rb (aS ∪ rS) hw1 ?_
      intro k hk'
      rw [hfr.1]
      exact hk k (List.mem_cons_of_mem k0 hk')

/-- C4 (amended): `double` runs the per-neighbour opens exactly when the
tile is open, satisfied (`value = neighbour_flags`) *and* has at least
one neighbour — the satisfied empty-neighbour case raises instead (see
the counterexample) — and on a covered or unsatisfied tile it returns the
empty set with no mutation.  When it runs, every unflagged neighbour ends
up open, the returned set is exactly the union of the changed-sets (the
tiles whose `covered` flipped), and no other field of any tile changes. -/
theorem claim_C4_amended_double (b : Board) (i : Nat) (BFS : Bool)
    (hw : Wired b) (hi : i < b.size) :
    (¬((b.tiles i).covered = false ∧
        (b.tiles i).value = (b.tiles i).neighbour_flags) →
      Tile.double b i BFS = some (b, ∅)) ∧
    (((b.tiles i).covered = false ∧
        (b.tiles i).value = (b.tiles i).neighbour_flags ∧
        (b.tiles i).neighbours ≠ ∅) →
      ∃ b2 S, Tile.double b i BFS = some (b2, S) ∧
        (∀ k ∈ (b.tiles i).neighbours, (b.tiles k).flagged = false →
          (b2.tiles k).covered = false) ∧
        (∀ j, j ∈ S ↔ ((b.tiles j).covered = true ∧ (b2.tiles j).covered = false)) ∧
        (∀ j, sameButCovered (b.tiles j) (b2.tiles j))) := by
  constructor
  · intro hns
    unfold Tile.double
    rw [if_neg hns]
  · rintro ⟨h1, h2, h3⟩
    unfold Tile.double
    rw [if_pos ⟨h1, h2⟩, if_neg h3]
    have hmem : ∀ k ∈ sortedSlots (b.tiles i).neighbours, k < b.size := by
      intro k hk
      exact Finset.mem_range.mp (hw i hi ((mem_sortedSlots _ k).mp hk))
    have htot := doubleFold_total BFS (sortedSlots (b.tiles i).neighbours) b ∅ hw hmem
    cases hop : doubleFold BFS (sortedSlots (b.tiles i).neighbours) (b, ∅) with
    | none => rw [hop] at htot; exact Bool.noConfusion htot
    | some r =>
      obtain ⟨b2, S⟩ := r
      obtain ⟨hsz, hfr, hmono, hch, hlist⟩ :=
        doubleFold_spec BFS (sortedSlots (b.tiles i).neighbours) b ∅ b2 S hop
      refine ⟨b2, S, rfl, ?_, ?_, hfr⟩
      · intro k hk hkf
        exact hlist k ((mem_sortedSlots _ k).mpr hk) hkf
      · intro j
        rw [hch j]
        constructor
        · rintro (hj | hj)
          · exact absurd hj (Finset.not_mem_empty j)
          · exact hj
        · exact Or.inr

/-! ### Flood-fill correctness (C2) -/

lemma basic_open_eff_zero (b : Board) (i : Nat)
    (hf : (b.tiles i).flagged = false) (hc : (b.tiles i).covered = true)
    (hv : (b.tiles i).value = 0) :
    Tile.basic_open b i false =
      (b.modifyTile i (fun t => { t with covered := false }), true,
        (b.tiles i).neighbours) := by
  rw [basic_open_eff b i false hf hc, if_pos (Or.inl hv)]

lemma basic_open_eff_nonzero (b : Board) (i : Nat)
    (hf : (b.tiles i).flagged = false) (hc : (b.tiles i).covered = true)
    (hv : ¬((b.tiles i).value = 0)) :
    Tile.basic_open b i false =
      (b.modifyTile i (fun t => { t with covered := false }), true, (∅ : Finset Nat)) := by
  rw [basic_open_eff b i false hf hc, if_neg]
  rintro (h | ⟨hb, _⟩)
  · exact hv h
  · exact Bool.noConfusion hb

/-- Every slot of the candidate zero-region or its border is on the
board. -/
lemma ZB_lt_size (b : Board) (Z : Finset Nat) (hw : Wired b)
    (hZsub : Z ⊆ Finset.range b.size) :
    ∀ j ∈ Z ∪ borderOf b Z, j < b.size := by
  intro j hj
  rcases Finset.mem_union.mp hj with hj | hj
  · exact Finset.mem_range.mp (hZsub hj)
  · obtain ⟨hbj, _⟩ := Finset.mem_sdiff.mp (by exact hj)
    obtain ⟨i0, hi0, hji⟩ := Finset.mem_biUnion.mp hbj
    exact Finset.mem_range.mp (hw i0 (Finset.mem_range.mp (hZsub hi0)) hji)

/-- A border tile of a closed zero-region has nonzero value. -/
lemma border_nonzero (b : Board) (Z : Finset Nat)
    (hZmax : ∀ i ∈ Z, ∀ j ∈ (b.tiles i).neighbours, (b.tiles j).value = 0 → j ∈ Z) :
    ∀ j ∈ borderOf b Z, ¬((b.tiles j).value = 0) := by
  intro j hj hv
  obtain ⟨hbj, hnotZ⟩ := Finset.mem_sdiff.mp (by exact hj)
  obtain ⟨i0, hi0, hji⟩ := Finset.mem_biUnion.mp hbj
  exact hnotZ (hZmax i0 hi0 j hji hv)

/-- Loop invariant of the breadth-first open started inside the
zero-region `Z` of the initially fully covered board `b0`. -/
structure FloodInv (b0 : Board) (Z : Finset Nat) (seed : Nat)
    (b : Board) (q : List Nat) (changed : Finset Nat) : Prop where
  frame : ∀ j, sameButCovered (b0.tiles j) (b.tiles j)
  qmem : ∀ j ∈ q, j ∈ Z ∪ borderOf b0 Z
  chmem : ∀ j, j ∈ changed ↔ (j ∈ Z ∪ borderOf b0 Z ∧ (b.tiles j).covered = false)
  sound : ∀ j, j < b0.size → (b.tiles j).covered = false → j ∈ Z ∪ borderOf b0 Z
  seedInv : (b.tiles seed).covered = false ∨ seed ∈ q
  complete : ∀ i ∈ Z, (b.tiles i).covered = false →
    ∀ j ∈ (b0.tiles i).neighbours, (b.tiles j).covered = false ∨ j ∈ q

/-- The breadth-first loop preserves the flood invariant down to an empty
queue. -/
lemma flood_run (b0 : Board) (Z : Finset Nat) (seed : Nat)
    (hw : Wired b0)
    (hfresh : ∀ j < b0.size, (b0.tiles j).covered = true ∧ (b0.tiles j).flagged = false)
    (hZsub : Z ⊆ Finset.range b0.size)
    (hZzero : ∀ i ∈ Z, (b0.tiles i).value = 0)
    (hZmax : ∀ i ∈ Z, ∀ j ∈ (b0.tiles i).neighbours, (b0.tiles j).value = 0 → j ∈ Z) :
    ∀ fuel b q ch b2 S,
      FloodInv b0 Z seed b q ch →
      Tile.openAux false false fuel b q ch ∅ = some (b2, S) →
      FloodInv b0 Z seed b2 [] S := by
  intro fuel
  induction fuel with
  | zero =>
    intro b q ch b2 S inv h
    cases q with
    | nil =>
      rw [openAux_nil] at h
      simp only [Option.some.injEq, Prod.mk.injEq] at h
      obtain ⟨h1, h2⟩ := h
      subst h1
      simp only [if_neg (by simp : ¬(false = true))] at h2
      subst h2
      exact inv
    | cons i rest => exact Option.noConfusion h
  | succ fuel ih =>
    intro b q ch b2 S inv h
    cases q with
    | nil =>
      rw [openAux_nil] at h
      simp only [Option.some.injEq, Prod.mk.injEq] at h
      obtain ⟨h1, h2⟩ := h
      subst h1
      simp only [if_neg (by simp : ¬(false = true))] at h2
      subst h2
      exact inv
    | cons i rest =>
      rw [openAux_succ_cons] at h
      have hiZB : i ∈ Z ∪ borderOf b0 Z := inv.qmem i (List.mem_cons_self i rest)
      have hisize : i < b0.size := ZB_lt_size b0 Z hw hZsub i hiZB
      have hflag : (b.tiles i).flagged = false := by
        rw [(inv.frame i).2.2.2.1]
        exact (hfresh i hisize).2
      by_cases hcov : (b.tiles i).covered = true
      · -- the dequeued tile is effective
        have hval : (b.tiles i).value = (b0.tiles i).value := (inv.frame i).2.2.1
        have hnb : (b.tiles i).neighbours = (b0.tiles i).neighbours :=
          (inv.frame i).2.2.2.2.2.2.1
        by_cases hzero : (b0.tiles i).value = 0
        · -- zero tile: propagate to all neighbours
          have hiZ : i ∈ Z := by
            rcases Finset.mem_union.mp hiZB with hm | hm
            · exact hm
            · exact absurd hzero (border_nonzero b0 Z hZmax i hm)
          rw [basic_open_eff_zero b i hflag hcov (hval.trans hzero)] at h
          dsimp only at h
          rw [if_pos (rfl : true = true)] at h
          refine ih _ _ _ _ _ ?_ h
          constructor
          · intro j
            exact sameButCovered_trans (inv.frame j) (sameButCovered_uncover b i j)
          · intro j hj
            rcases List.mem_append.mp hj with hj' | hj'
            · exact inv.qmem j (List.mem_cons_of_mem i hj')
            · rw [mem_sortedSlots, hnb] at hj'
              by_cases hjZ : j ∈ Z
              · exact Finset.mem_union_left _ hjZ
              · refine Finset.mem_union_right _ ?_
                refine Finset.mem_sdiff.mpr ⟨?_, hjZ⟩
                exact Finset.mem_biUnion.mpr ⟨i, hiZ, hj'⟩
          · intro j
            by_cases hji : j = i
            · subst hji
              constructor
              · intro _
                refine ⟨hiZB, ?_⟩
                rw [Board.modifyTile_self]
              · intro _
                exact Finset.mem_insert_self j ch
            · rw [Finset.mem_insert]
              rw [Board.modifyTile_other b i j _ hji]
              constructor
              · rintro (hj | hj)
                · exact absurd hj hji
                · exact (inv.chmem j).mp hj
              · intro hj
                exact Or.inr ((inv.chmem j).mpr hj)
          · intro j hjs hjc
            by_cases hji : j = i
            · subst hji
              exact hiZB
            · rw [Board.modifyTile_other b i j _ hji] at hjc
              exact inv.sound j hjs hjc
          · rcases inv.seedInv with hs | hs
            · exact Or.inl (uncover_mono b i seed hs)
            · rcases List.mem_cons.mp hs with hs' | hs'
              · subst hs'
                exact Or.inl (by rw [Board.modifyTile_self])
              · exact Or.inr (List.mem_append_left _ hs')
          · intro z hz hzc j hjn
            by_cases hzi : z = i
            · subst hzi
              refine Or.inr (List.mem_append_right _ ?_)
              rw [mem_sortedSlots, hnb]
              exact hjn
            · rw [Board.modifyTile_other b i z _ hzi] at hzc
              rcases inv.complete z hz hzc j hjn with hjc | hjq
              · exact Or.inl (uncover_mono b i j hjc)
              · rcases List.mem_cons.mp hjq with hj' | hj'
                · subst hj'
                  exact Or.inl (by rw [Board.modifyTile_self])
                · exact Or.inr (List.mem_append_left _ hj')
        · -- numbered tile: no propagation
          have hiB : ¬(i ∈ Z) := fun hm => hzero (hZzero i hm)
          rw [basic_open_eff_nonzero b i hflag hcov
            (by rw [hval]; exact hzero)] at h
          dsimp only at h
          rw [sortedSlots_empty, List.append_nil] at h
          rw [if_pos (rfl : true = true)] at h
          refine ih _ _ _ _ _ ?_ h
          constructor
          · intro j
            exact sameButCovered_trans (inv.frame j) (sameButCovered_uncover b i j)
          · intro j hj
            exact inv.qmem j (List.mem_cons_of_mem i hj)
          · intro j
            by_cases hji : j = i
            · subst hji
              constructor
              · intro _
                refine ⟨hiZB, ?_⟩
                rw [Board.modifyTile_self]
              · intro _
                exact Finset.mem_insert_self j ch
            · rw [Finset.mem_insert]
              rw [Board.modifyTile_other b i j _ hji]
              constructor
              · rintro (hj | hj)
                · exact absurd hj hji
                · exact (inv.chmem j).mp hj
              · intro hj
                exact Or.inr ((inv.chmem j).mpr hj)
          · intro j hjs hjc
            by_cases hji : j = i
            · subst hji
              exact hiZB
            · rw [Board.modifyTile_other b i j _ hji] at hjc
              exact inv.sound j hjs hjc
          · rcases inv.seedInv with hs | hs
            · exact Or.inl (uncover_mono b i seed hs)
            · rcases List.mem_cons.mp hs with hs' | hs'
              · subst hs'
                exact Or.inl (by rw [Board.modifyTile_self])
              · exact Or.inr hs'
          · intro z hz hzc j hjn
            by_cases hzi : z = i
            · subst hzi
              exact absurd hz hiB
            · rw [Board.modifyTile_other b i z _ hzi] at hzc
              rcases inv.complete z hz hzc j hjn with hjc | hjq
              · exact Or.inl (uncover_mono b i j hjc)
              · rcases List.mem_cons.mp hjq with hj' | hj'
                · subst hj'
                  exact Or.inl (by rw [Board.modifyTile_self])
                · exact Or.inr hj'
      · -- the dequeued tile is already open: no-op
        have hcov' : (b.tiles i).covered = false := bool_not_true hcov
        rw [basic_open_skip b i false (Or.inr hcov')] at h
        dsimp only at h
        rw [sortedSlots_empty, List.append_nil] at h
        simp only [if_neg (by simp : ¬(false = true))] at h
        refine ih _ _ _ _ _ ?_ h
        constructor
        · exact inv.frame
        · intro j hj
          exact inv.qmem j (List.mem_cons_of_mem i hj)
        · exact inv.chmem
        · exact inv.sound
        · rcases inv.seedInv with hs | hs
          · exact Or.inl hs
          · rcases List.mem_cons.mp hs with hs' | hs'
            · subst hs'
              exact Or.inl hcov'
            · exact Or.inr hs'
        · intro z hz hzc j hjn
          rcases inv.complete z hz hzc j hjn with hjc | hjq
          · exact Or.inl hjc
          · rcases List.mem_cons.mp hjq with hj' | hj'
            · subst hj'
              exact Or.inl hcov'
            · exact Or.inr hj'

lemma zreach_subset (b : Board) (Z : Finset Nat) (seed : Nat) (hseedZ : seed ∈ Z) :
    ∀ n, zreach b Z seed n ⊆ Z := by
  intro n
  induction n with
  | zero =>
    intro j hj
    simp only [zreach, Finset.mem_singleton] at hj
    subst hj
    exact hseedZ
  | succ n ihn =>
    intro j hj
    simp only [zreach, zstep] at hj
    rcases Finset.mem_union.mp hj with hj' | hj'
    · exact ihn hj'
    · exact (Finset.mem_filter.mp hj').1

/-- After the queue empties, every tile the zero-region reachability
iteration can see is open. -/
lemma flood_complete_zreach (b0 : Board) (Z : Finset Nat) (seed : Nat)
    (b2 : Board) (S : Finset Nat) (hseedZ : seed ∈ Z)
    (inv : FloodInv b0 Z seed b2 [] S) :
    ∀ n, ∀ j ∈ zreach b0 Z seed n, (b2.tiles j).covered = false := by
  have hseedOpen : (b2.tiles seed).covered = false := by
    rcases inv.seedInv with hs | hs
    · exact hs
    · exact absurd hs (List.not_mem_nil seed)
  intro n
  induction n with
  | zero =>
    intro j hj
    simp only [zreach, Finset.mem_singleton] at hj
    subst hj
    exact hseedOpen
  | succ n ihn =>
    intro j hj
    simp only [zreach, zstep] at hj
    rcases Finset.mem_union.mp hj with hj' | hj'
    · exact ihn j hj'
    · obtain ⟨hjZ, i0, hi0, hji⟩ := Finset.mem_filter.mp hj'
      have hi0Z : i0 ∈ Z := zreach_subset b0 Z seed hseedZ n hi0
      rcases inv.complete i0 hi0Z (ihn i0 hi0) j hji with hc | hq
      · exact hc
      · exact absurd hq (List.not_mem_nil j)

/-- C2: on any fully covered wired board, if `Z` is a connected set of
0-valued tiles that is closed under zero-valued adjacency (so `Z`
together with its numbered border `borderOf` is exactly the classic
flood region), then `open` on any seed in `Z` returns exactly
`Z ∪ borderOf` and uncovers exactly those tiles; on the 5×5 board with no
mines this makes any `open` reveal all 25 tiles (see the witness). -/
theorem claim_C2_flood_fill (b : Board) (seed : Nat) (Z : Finset Nat) (n : Nat)
    (hw : Wired b)
    (hfresh : ∀ j < b.size, (b.tiles j).covered = true ∧ (b.tiles j).flagged = false)
    (hZsub : Z ⊆ Finset.range b.size)
    (hseedZ : seed ∈ Z)
    (hZzero : ∀ i ∈ Z, (b.tiles i).value = 0)
    (hZmax : ∀ i ∈ Z, ∀ j ∈ (b.tiles i).neighbours, (b.tiles j).value = 0 → j ∈ Z)
    (hconn : Z ⊆ zreach b Z seed n) :
    ∃ b2 S, Tile.openOp b seed false false = some (b2, S) ∧
      S = Z ∪ borderOf b Z ∧
      (∀ j < b.size, ((b2.tiles j).covered = false ↔ j ∈ Z ∪ borderOf b Z)) := by
  have hseedsize : seed < b.size := Finset.mem_range.mp (hZsub hseedZ)
  have htot := openOp_total b seed false false hw hseedsize
  cases hop : Tile.openOp b seed false false with
  | none => rw [hop] at htot; exact Bool.noConfusion htot
  | some r =>
    obtain ⟨b2, S⟩ := r
    have hop' : Tile.openAux false false (b.potential + 1) b [seed] ∅ ∅ = some (b2, S) :=
      hop
    have inv0 : FloodInv b Z seed b [seed] ∅ := by
      constructor
      · intro j
        exact sameButCovered_refl _
      · intro j hj
        rw [List.mem_singleton] at hj
        subst hj
        exact Finset.mem_union_left _ hseedZ
      · intro j
        constructor
        · intro hj
          exact absurd hj (Finset.not_mem_empty j)
        · rintro ⟨hm, hc⟩
          rw [(hfresh j (ZB_lt_size b Z hw hZsub j hm)).1] at hc
          exact Bool.noConfusion hc
      · intro j hjs hjc
        rw [(hfresh j hjs).1] at hjc
        exact Bool.noConfusion hjc
      · exact Or.inr (List.mem_singleton.mpr rfl)
      · intro z hz hzc
        rw [(hfresh z (Finset.mem_range.mp (hZsub hz))).1] at hzc
        exact Bool.noConfusion hzc
    have invF : FloodInv b Z seed b2 [] S :=
      flood_run b Z seed hw hfresh hZsub hZzero hZmax _ b [seed] ∅ b2 S inv0 hop'
    have hZopen : ∀ i ∈ Z, (b2.tiles i).covered = false := by
      intro i hi
      exact flood_complete_zreach b Z seed b2 S hseedZ invF n i (hconn hi)
    have hBopen : ∀ j ∈ borderOf b Z, (b2.tiles j).covered = false := by
      intro j hj
      obtain ⟨hbj, _⟩ := Finset.mem_sdiff.mp (by exact hj)
      obtain ⟨i0, hi0, hji⟩ := Finset.mem_biUnion.mp hbj
      rcases invF.complete i0 hi0 (hZopen i0 hi0) j hji with hc | hq
      · exact hc
      · exact absurd hq (List.not_mem_nil j)
    refine ⟨b2, S, rfl, ?_, ?_⟩
    · apply Finset.ext
      intro j
      rw [invF.chmem j]
      constructor
      · rintro ⟨hm, _⟩
        exact hm
      · intro hm
        refine ⟨hm, ?_⟩
        rcases Finset.mem_union.mp hm with hm' | hm'
        · exact hZopen j hm'
        · exact hBopen j hm'
    · intro j hjs
      constructor
      · exact invF.sound j hjs
      · intro hm
        rcases Finset.mem_union.mp hm with hm' | hm'
        · exact hZopen j hm'
        · exact hBopen j hm'

theorem claim_C2_witness :
    Wired board5 ∧
    (∀ j < board5.size, (board5.tiles j).covered = true ∧ (board5.tiles j).flagged = false) ∧
    Finset.range 25 ⊆ Finset.range board5.size ∧
    12 ∈ Finset.range 25 ∧
    (∀ i ∈ Finset.range 25, (board5.tiles i).value = 0) ∧
    (∀ i ∈ Finset.range 25, ∀ j ∈ (board5.tiles i).neighbours,
      (board5.tiles j).value = 0 → j ∈ Finset.range 25) ∧
    Finset.range 25 ⊆ zreach board5 (Finset.range 25) 12 4 ∧
    ∃ b2 S, Tile.openOp board5 12 false false = some (b2, S) ∧
      S = Finset.range 25 ∪ borderOf board5 (Finset.range 25) ∧
      (∀ j < board5.size, ((b2.tiles j).covered = false ↔
        j ∈ Finset.range 25 ∪ borderOf board5 (Finset.range 25))) :=
  ⟨by decide, by decide, by decide, by decide, by decide, by decide, by decide,
    claim_C2_flood_fill board5 12 (Finset.range 25) 4 (by decide) (by decide)
      (by decide) (by decide) (by decide) (by decide) (by decide)⟩

theorem claim_C4_witness :
    Wired dbBoard ∧ 0 < dbBoard.size ∧
    ((¬((dbBoard.tiles 0).covered = false ∧
        (dbBoard.tiles 0).value = (dbBoard.tiles 0).neighbour_flags) →
      Tile.double dbBoard 0 false = some (dbBoard, ∅)) ∧
    (((dbBoard.tiles 0).covered = false ∧
        (dbBoard.tiles 0).value = (dbBoard.tiles 0).neighbour_flags ∧
        (dbBoard.tiles 0).neighbours ≠ ∅) →
      ∃ b2 S, Tile.double dbBoard 0 false = some (b2, S) ∧
        (∀ k ∈ (dbBoard.tiles 0).neighbours, (dbBoard.tiles k).flagged = false →
          (b2.tiles k).covered = false) ∧
        (∀ j, j ∈ S ↔ ((dbBoard.tiles j).covered = true ∧
          (b2.tiles j).covered = false)) ∧
        (∀ j, sameButCovered (dbBoard.tiles j) (b2.tiles j)))) :=
  ⟨by decide, by decide, claim_C4_amended_double dbBoard 0 false (by decide) (by decide)⟩

/-! ### The stored status field under the core operations (C3) -/

lemma bumpFlags_status (b : Board) (ns : Finset Nat) (d : Int) (j : Nat) :
    ((b.bumpFlags ns d).tiles j).status = (b.tiles j).status := by
  unfold Board.bumpFlags
  dsimp only
  split_ifs <;> rfl

lemma easyFlagStep_status (b : Board) (k j : Nat) :
    ((Board.easyFlagStep b k).tiles j).status = (b.tiles j).status := by
  unfold Board.easyFlagStep
  rw [bumpFlags_status]
  by_cases hjk : j = k
  · subst hjk; rw [Board.modifyTile_self]
  · rw [Board.modifyTile_other _ _ _ _ hjk]

lemma foldl_easyFlagStep_status (l : List Nat) :
    ∀ b j, (((l.foldl Board.easyFlagStep b)).tiles j).status = (b.tiles j).status := by
  induction l with
  | nil => intro b j; rfl
  | cons k rest ih =>
    intro b j
    rw [List.foldl_cons, ih, easyFlagStep_status]

/-- `flag` never touches the stored `status`. -/
lemma flag_status (b : Board) (i : Nat) (easy : Bool) (j : Nat) :
    ((Tile.flag b i easy).1.tiles j).status = (b.tiles j).status := by
  unfold Tile.flag
  split_ifs with h1 h2 h3 h4
  · dsimp only
    rw [bumpFlags_status]
    by_cases hji : j = i
    · subst hji; rw [Board.modifyTile_self]
    · rw [Board.modifyTile_other _ _ _ _ hji]
  · dsimp only
    rw [bumpFlags_status]
    by_cases hji : j = i
    · subst hji; rw [Board.modifyTile_self]
    · rw [Board.modifyTile_other _ _ _ _ hji]
  · dsimp only
    rw [foldl_easyFlagStep_status]
  · rfl
  · rfl

lemma left_hold_status (b : Board) (i j : Nat) :
    ((Tile.left_hold b i).tiles j).status = (b.tiles j).status := by
  unfold Tile.left_hold
  by_cases hji : j = i
  · subst hji
    rw [Board.modifyTile_self]
    split_ifs <;> rfl
  · rw [Board.modifyTile_other _ _ _ _ hji]

lemma foldl_left_hold_status (l : List Nat) :
    ∀ b j, (((l.foldl Tile.left_hold b)).tiles j).status = (b.tiles j).status := by
  induction l with
  | nil => intro b j; rfl
  | cons k rest ih =>
    intro b j
    rw [List.foldl_cons, ih, left_hold_status]

lemma double_hold_status (b : Board) (i j : Nat) :
    ((Tile.double_hold b i).tiles j).status = (b.tiles j).status := by
  unfold Tile.double_hold
  rw [foldl_left_hold_status, left_hold_status]

lemma unhold_status (b : Board) (i j : Nat) :
    ((Tile.unhold b i).tiles j).status = (b.tiles j).status := by
  unfold Tile.unhold
  by_cases hji : j = i
  · subst hji
    rw [Board.modifyTile_self]
    split_ifs <;> rfl
  · rw [Board.modifyTile_other _ _ _ _ hji]

/-- `double` never touches the stored `status` (whether it no-ops, runs
the per-neighbour opens, or raises). -/
lemma double_status (b : Board) (i : Nat) (BFS : Bool) (j : Nat) :
    (((Tile.double b i BFS).getD (b, ∅)).1.tiles j).status = (b.tiles j).status := by
  unfold Tile.double
  split_ifs with h1 h2
  · rfl
  · cases hop : doubleFold BFS (sortedSlots ((b.tiles i).neighbours)) (b, ∅) with
    | none => rfl
    | some r =>
      obtain ⟨b2, S2⟩ := r
      simp only [Option.getD_some]
      exact ((doubleFold_spec BFS _ b ∅ b2 S2 hop).2.1 j).2.2.2.2.2.1
  · rfl

/-- C3 (amended): `get_status` returns the stored `status` field, which
none of the core operations refresh — `open`, `flag`, `double`,
`left_hold`, `double_hold` and `unhold` all leave `status` untouched on
every tile — and which agrees with the display code derived from the
canonical state (FLAGGED if flagged, else DOWN if down, else COVERED if
covered, else the value) exactly after `update` recomputes it. -/
theorem claim_C3_amended_status (t : Tile) (b : Board) (i j : Nat) (BFS top easy : Bool) :
    Tile.get_status (Tile.update t) = derivedStatus t ∧
    (((Tile.openOp b i BFS top).getD (b, ∅)).1.tiles j).status = (b.tiles j).status ∧
    ((Tile.flag b i easy).1.tiles j).status = (b.tiles j).status ∧
    (((Tile.double b i BFS).getD (b, ∅)).1.tiles j).status = (b.tiles j).status ∧
    ((Tile.left_hold b i).tiles j).status = (b.tiles j).status ∧
    ((Tile.double_hold b i).tiles j).status = (b.tiles j).status ∧
    ((Tile.unhold b i).tiles j).status = (b.tiles j).status := by
  refine ⟨rfl, ?_, flag_status b i easy j, double_status b i BFS j,
    left_hold_status b i j, double_hold_status b i j, unhold_status b i j⟩
  cases hop : Tile.openOp b i BFS top with
  | none => rfl
  | some r => exact ((openOp_frame b i BFS top r.1 r.2 (by rw [hop])).2.1 j).2.2.2.2.2.1
